import Mathlib

/-!
Verification of the linear-algebra core of the WebXR linear-algebra app
(`src/ARScene.tsx`): the RREF step recorder `calculateRrefSteps`, the
solution classifier `analyzeRref`, and the geometry helpers
`getPlaneTransformFromRow` and `intersectThreePlanes`.

Modelling conventions:
* JavaScript doubles are modelled as exact rationals `ℚ`; the tolerance
  constant `EPSILON = 1e-6` and its square are carried over literally.
* A matrix is a list of rows (`List (List ℚ)`), mirroring `number[][]`.
  Out-of-range array reads (which cannot occur for the rectangular inputs
  the claims quantify over) are modelled as `0` via `List.getD`.
* Imperative `for` loops are translated into structurally recursive
  functions whose first argument is the number of remaining iterations
  (`fuel`), so that every function reduces in the kernel; callers pass
  exactly the iteration count of the source loop, so the translation is
  extensionally the loop of the source.
-/

set_option maxRecDepth 40000

/- Batteries marks the `Rat` field operations `[irreducible]`, which blocks
`decide`-style evaluation of closed rational computations; restore the
default transparency for this file (the kernel semantics are unchanged). -/
attribute [local semireducible] Rat.add Rat.mul Rat.sub Rat.inv

namespace ARScene

/-- `const EPSILON = 1e-6`. -/
def EPSILON : ℚ := 1 / 1000000

/-- `const SQ_EPSILON = EPSILON * EPSILON`. -/
def SQ_EPSILON : ℚ := EPSILON * EPSILON

/-- `type Matrix = number[][]`. -/
abbrev Matrix := List (List ℚ)

/-- Entry `matrix[i][j]`, with out-of-range reads modelled as `0`. -/
def getE (m : Matrix) (i j : ℕ) : ℚ := (m.getD i []).getD j 0

/-- The snap-to-zero applied after arithmetic row operations:
`(val) => Math.abs(val) < EPSILON ? 0 : val`. -/
def snap (v : ℚ) : ℚ := if |v| < EPSILON then 0 else v

/-- `row.map((val) => Math.abs(val) < EPSILON ? 0 : val)`. -/
def snapRow (row : List ℚ) : List ℚ := row.map snap

/-- `matrix[i].map((el, j) => el - factor * matrix[pivotRow][j])`.
The JavaScript map runs over the indices of `row`, reading the pivot row
positionally, which is what the `List.range` form expresses. -/
def rowCombine (row : List ℚ) (factor : ℚ) (prow : List ℚ) : List ℚ :=
  (List.range row.length).map (fun j => row.getD j 0 - factor * prow.getD j 0)

/-- `const deepCopyMatrix = (matrix) => matrix.map((row) => [...row])`.
Lean lists are immutable values, so a deep copy is the identity. -/
def deepCopyMatrix (matrix : Matrix) : Matrix :=
  matrix.map (fun row => row.map (fun v => v))

/-- The partial-pivoting scan
`for (k = pivotRow+1; k < numRows; k++) if (|m[k][c]| > |m[maxRow][c]|) maxRow = k`.
`fuel` is the number of remaining iterations (`numRows - k`). -/
def findMaxRowAux (m : Matrix) (pivotCol : ℕ) : ℕ → ℕ → ℕ → ℕ
  | 0, _, maxRow => maxRow
  | fuel + 1, k, maxRow =>
    findMaxRowAux m pivotCol fuel (k + 1)
      (if |getE m k pivotCol| > |getE m maxRow pivotCol| then k else maxRow)

/-- The elimination loop of the forward phase:
`for (i = 0; i < numRows; i++) if (i !== pivotRow) { ... }`, subtracting
`factor` times the pivot row and snapping, recording a snapshot per row
actually changed.  `fuel` is `numRows - i`. -/
def elimLoop (pivotRow pivotCol : ℕ) : ℕ → ℕ → Matrix → List Matrix →
    Matrix × List Matrix
  | 0, _, m, h => (m, h)
  | fuel + 1, i, m, h =>
    if i = pivotRow then elimLoop pivotRow pivotCol fuel (i + 1) m h
    else
      let factor := getE m i pivotCol
      if |factor| > EPSILON then
        let m' := m.set i (snapRow (rowCombine (m.getD i []) factor (m.getD pivotRow [])))
        elimLoop pivotRow pivotCol fuel (i + 1) m' (h ++ [deepCopyMatrix m'])
      else elimLoop pivotRow pivotCol fuel (i + 1) m h

/-- The forward-elimination loop
`for (pivotCol = 0; pivotCol < numCols-1 && pivotRow < numRows; pivotCol++)`.
`fuel` is `numCols - 1 - pivotCol`, the number of remaining columns.
Each iteration does partial pivoting, the epsilon skip, the optional swap,
the optional pivot normalization, and the elimination loop, recording a
snapshot after each operation that changes the matrix. -/
def fwdLoop (numRows numCols : ℕ) : ℕ → ℕ → ℕ → Matrix → List Matrix →
    Matrix × List Matrix
  | 0, _, _, m, h => (m, h)
  | fuel + 1, pivotCol, pivotRow, m, h =>
    if numRows ≤ pivotRow then (m, h)
    else
      let maxRow := findMaxRowAux m pivotCol (numRows - (pivotRow + 1)) (pivotRow + 1) pivotRow
      if |getE m maxRow pivotCol| < EPSILON then
        fwdLoop numRows numCols fuel (pivotCol + 1) pivotRow m h
      else
        let m1 := if maxRow = pivotRow then m
          else (m.set pivotRow (m.getD maxRow [])).set maxRow (m.getD pivotRow [])
        let h1 := if maxRow = pivotRow then h else h ++ [deepCopyMatrix m1]
        let pivotValue := getE m1 pivotRow pivotCol
        let m2 := if |pivotValue - 1| > EPSILON then
            m1.set pivotRow (snapRow ((m1.getD pivotRow []).map (fun el => el / pivotValue)))
          else m1
        let h2 := if |pivotValue - 1| > EPSILON then h1 ++ [deepCopyMatrix m2] else h1
        let eh := elimLoop pivotRow pivotCol numRows 0 m2 h2
        fwdLoop numRows numCols fuel (pivotCol + 1) (pivotRow + 1) eh.1 eh.2

/-- The inner scan of the back-substitution pivot detection:
`for (k = 0; k < j; k++) if (|m[i][k]| > EPSILON) { isLeading = false; break }`. -/
def isLeadingUpTo (row : List ℚ) (j : ℕ) : Bool :=
  (List.range j).all (fun k => !(decide (|row.getD k 0| > EPSILON)))

/-- The pivot-column detection of the back-substitution phase (also used by
the analyzer's unique-solution extraction): scan `j` upward below `bound`
(`numCols - 1` resp. `numVars`); a value within `EPSILON` of `1` whose left
neighbours are all within `EPSILON` of `0` is the pivot; a value larger than
`EPSILON` that is not such a leading `1` ends the scan with no pivot.
`fuel` is `bound - j`. -/
def findPivotColAux (row : List ℚ) : ℕ → ℕ → Option ℕ
  | 0, _ => Option.none
  | fuel + 1, j =>
    let v := row.getD j 0
    if |v - 1| < EPSILON then
      if isLeadingUpTo row j then some j
      else findPivotColAux row fuel (j + 1)
    else if |v| > EPSILON then Option.none
    else findPivotColAux row fuel (j + 1)

/-- The elimination loop of the back-substitution phase:
`for (k = i-1; k >= 0; k--)`, eliminating above pivot row `i`.
`fuel + 1` is the row index processed first (the loop counts down). -/
def backElimLoop (i pivotCol : ℕ) : ℕ → Matrix → List Matrix →
    Matrix × List Matrix
  | 0, m, h => (m, h)
  | k + 1, m, h =>
    let factor := getE m k pivotCol
    if |factor| > EPSILON then
      let m' := m.set k (snapRow (rowCombine (m.getD k []) factor (m.getD i [])))
      backElimLoop i pivotCol k m' (h ++ [deepCopyMatrix m'])
    else backElimLoop i pivotCol k m h

/-- The back-substitution phase `for (i = numRows-1; i >= 0; i--)`:
find the leading pivot of row `i` among the variable columns and eliminate
the entries above it.  `fuel + 1` is the row index processed first. -/
def backLoop (numCols : ℕ) : ℕ → Matrix → List Matrix → Matrix × List Matrix
  | 0, m, h => (m, h)
  | i + 1, m, h =>
    match findPivotColAux (m.getD i []) (numCols - 1) 0 with
    | some pivotCol =>
      let eh := backElimLoop i pivotCol i m h
      backLoop numCols i eh.1 eh.2
    | Option.none => backLoop numCols i m h

/-- The body of `calculateRrefSteps`, returning both the final working
matrix and the recorded history. -/
def rrefRun (initialMatrix : Matrix) : Matrix × List Matrix :=
  let history : List Matrix := [deepCopyMatrix initialMatrix]
  let matrix := deepCopyMatrix initialMatrix
  let numRows := matrix.length
  if numRows = 0 then (matrix, history)
  else
    let numCols := (matrix.headD []).length
    if numCols = 0 then (matrix, history)
    else
      let fh := fwdLoop numRows numCols (numCols - 1) 0 0 matrix history
      backLoop numCols numRows fh.1 fh.2

/-- `const calculateRrefSteps = (initialMatrix: Matrix): Matrix[] => ...`. -/
def calculateRrefSteps (initialMatrix : Matrix) : List Matrix :=
  (rrefRun initialMatrix).2

/-- The `consistency` field of `RrefAnalysisResult`. -/
inductive Consistency where
  | consistent
  | inconsistent
deriving DecidableEq

/-- The `solutionType` field of `RrefAnalysisResult`. -/
inductive SolutionType where
  | none
  | unique
  | infinite_line
  | infinite_plane
deriving DecidableEq

/-- `three.Vector3`, with exact rational coordinates. -/
structure Vec3 where
  x : ℚ
  y : ℚ
  z : ℚ
deriving DecidableEq

/-- `type RrefAnalysisResult = { consistency; solutionType; solutionString;
solutionPoint }`. -/
structure RrefAnalysisResult where
  consistency : Consistency
  solutionType : SolutionType
  solutionString : String
  solutionPoint : Option Vec3
deriving DecidableEq

/-- JavaScript `Number.prototype.toFixed(2)`: render with two decimal
digits, rounding halves away from zero. -/
def qToFixed2 (q : ℚ) : String :=
  let sign := if q < 0 then "-" else ""
  let n : ℤ := ⌊|q| * 100 + 1 / 2⌋
  let frac := (n % 100).toNat
  sign ++ toString (n / 100) ++ "." ++
    (if frac < 10 then "0" ++ toString frac else toString frac)

/-- The analyzer's per-row scan
`for (c = 0; c < numCols; c++) if (|row[c]| > EPSILON) ... break`:
index of the first entry of `row` (among the first `numCols`) whose
absolute value exceeds `EPSILON`. -/
def rowFirstNonzero (row : List ℚ) (numCols : ℕ) : Option ℕ :=
  (List.range numCols).find? (fun c => decide (|row.getD c 0| > EPSILON))

/-- The analyzer's rank/consistency scan over the rows, top to bottom:
a first nonzero entry in a variable column contributes a pivot (`rank`),
one in the constant column makes the system inconsistent and stops the
scan. -/
def rankScan (rows : List (List ℚ)) (numCols numVars : ℕ) : ℕ × Bool :=
  match rows with
  | [] => (0, false)
  | row :: rest =>
    match rowFirstNonzero row numCols with
    | some c =>
      if c < numVars then
        let rs := rankScan rest numCols numVars
        (rs.1 + 1, rs.2)
      else (0, true)
    | Option.none => rankScan rest numCols numVars

/-- The unique-solution extraction loop `for (r = 0; r < rank; r++)`:
locate each row's leading pivot column among the variable columns and read
its constant entry into the positionally matching coordinate. -/
def extractSolution (m : Matrix) (rank numVars : ℕ) : ℚ × ℚ × ℚ :=
  (List.range rank).foldl
    (fun acc r =>
      match findPivotColAux (m.getD r []) numVars 0 with
      | some 0 => (getE m r numVars, acc.2.1, acc.2.2)
      | some 1 => (acc.1, getE m r numVars, acc.2.2)
      | some 2 => (acc.1, acc.2.1, getE m r numVars)
      | _ => acc)
    (0, 0, 0)

/-- `const analyzeRref = (rrefMatrix: Matrix): RrefAnalysisResult => ...`.
The `try/catch` of the source around the unique-solution extraction is
dropped: the extraction is total, so the `catch` branch is unreachable. -/
def analyzeRref (rrefMatrix : Matrix) : RrefAnalysisResult :=
  if rrefMatrix.length = 0 then
    ⟨.inconsistent, .none, "No equations.", Option.none⟩
  else
    let numCols := (rrefMatrix.headD []).length
    if numCols < 2 then
      ⟨.inconsistent, .none, "Invalid matrix shape.", Option.none⟩
    else
      let numVars := numCols - 1
      let rs := rankScan rrefMatrix numCols numVars
      if rs.2 then
        ⟨.inconsistent, .none, "Inconsistent system (no solution).", Option.none⟩
      else if rs.1 = numVars then
        let sol := extractSolution rrefMatrix rs.1 numVars
        ⟨.consistent, .unique,
          "Unique Solution: (" ++ qToFixed2 sol.1 ++ ", " ++ qToFixed2 sol.2.1 ++
            ", " ++ qToFixed2 sol.2.2 ++ ")",
          some ⟨sol.1, sol.2.1, sol.2.2⟩⟩
      else
        let freeVars : ℤ := (numVars : ℤ) - (rs.1 : ℤ)
        let typeAndStr : SolutionType × String :=
          if numVars = 3 then
            if freeVars = 1 then (.infinite_line, "Infinite Solutions (Line)")
            else if freeVars = 2 then (.infinite_plane, "Infinite Solutions (Plane)")
            else if freeVars = 3 ∧ rs.1 = 0 then
              (.infinite_plane, "Infinite Solutions (All R³)")
            else (.infinite_line,
              "Infinite Solutions (" ++ toString freeVars ++ " free variable(s))")
          else (.infinite_line,
            "Infinite Solutions (" ++ toString freeVars ++ " free variable(s))")
        ⟨.consistent, typeAndStr.1, typeAndStr.2, Option.none⟩

/-- `new Vector3().crossVectors(a, b)`. -/
def cross (a b : Vec3) : Vec3 :=
  ⟨a.y * b.z - a.z * b.y, a.z * b.x - a.x * b.z, a.x * b.y - a.y * b.x⟩

/-- `a.dot(b)`. -/
def dot (a b : Vec3) : ℚ := a.x * b.x + a.y * b.y + a.z * b.z

/-- `a.multiplyScalar(s)` (scalar on the left). -/
def smul (s : ℚ) (a : Vec3) : Vec3 := ⟨s * a.x, s * a.y, s * a.z⟩

/-- `a.add(b)`. -/
def vadd (a b : Vec3) : Vec3 := ⟨a.x + b.x, a.y + b.y, a.z + b.z⟩

/-- The result of `getPlaneTransformFromRow`.  The source returns a
`three.Euler` rotation built by rotating the canonical axis `(0,0,1)` onto
the normalized row normal — an irrational (floating-point) operation — so
the rotation is modelled by the normal that determines it
(`rotationSourceNormal`); the degenerate branch returns the identity
rotation, whose determining normal is `(0,0,1)` itself. -/
structure PlanePoseResult where
  position : Vec3
  rotationSourceNormal : Vec3
  isValid : Bool
deriving DecidableEq

/-- `const getPlaneTransformFromRow = (row: number[]) => ...`: `null` for
rows shorter than 4; for a degenerate normal (squared length below
`SQ_EPSILON`) an off-scene pose that is valid exactly when `|d|` is below
`EPSILON`; otherwise the foot-of-perpendicular pose, always valid. -/
def getPlaneTransformFromRow (row : List ℚ) : Option PlanePoseResult :=
  if row.length < 4 then Option.none
  else
    let a := row.getD 0 0
    let b := row.getD 1 0
    let c := row.getD 2 0
    let d_rhs := row.getD 3 0
    let normalLenSq := a * a + b * b + c * c
    if normalLenSq < SQ_EPSILON then
      some ⟨⟨0, -999, 0⟩, ⟨0, 0, 1⟩, decide (|d_rhs| < EPSILON)⟩
    else
      some ⟨⟨a * (d_rhs / normalLenSq), b * (d_rhs / normalLenSq),
        c * (d_rhs / normalLenSq)⟩, ⟨a, b, c⟩, true⟩

/-- The numeric core of `intersectThreePlanes`, acting on the plane data
`(normal, constantD)` that the source extracts with
`getPlaneParamsIntersection` (each plane satisfying `n·x + D = 0`); the
floating-point normalization of the normals is idealized to exact
arithmetic.  Returns `none` when the scalar triple product is below
`EPSILON` in absolute value, otherwise the Cramer-rule point
`(-D1·(n2×n3) - D2·(n3×n1) - D3·(n1×n2)) / det`. -/
def intersectThreePlanes (n1 n2 n3 : Vec3) (D1 D2 D3 : ℚ) : Option Vec3 :=
  let det := dot n1 (cross n2 n3)
  if |det| < EPSILON then Option.none
  else
    let term1 := smul (-D1) (cross n2 n3)
    let term2 := smul (-D2) (cross n3 n1)
    let term3 := smul (-D3) (cross n1 n2)
    some (smul (1 / det) (vadd (vadd term1 term2) term3))

/-- Invariant tying a `(matrix, history)` state to the initial matrix `M`
and the constant row count: the history is nonempty, starts at `M`, ends
at the current working matrix, and consecutive snapshots differ. -/
def Inv (M : Matrix) (numRows : ℕ) (s : Matrix × List Matrix) : Prop :=
  s.1.length = numRows ∧ s.2.head? = some M ∧ s.2.getLast? = some s.1 ∧
    List.Chain' (fun a b => a ≠ b) s.2

/-- The RREF predicate of claim C1, formalized from the claim's words: in
every row whose entries are not all within `EPSILON` of zero, the first
entry with absolute value above `EPSILON` is within `EPSILON` of `1`, and
every other entry in that entry's column is within `EPSILON` of `0`. -/
def isRrefUpToEps (m : Matrix) : Bool :=
  (List.range m.length).all (fun i =>
    let row := m.getD i []
    if row.all (fun v => decide (|v| ≤ EPSILON)) then true
    else
      match (List.range row.length).find?
          (fun c => decide (|row.getD c 0| > EPSILON)) with
      | some c =>
        decide (|row.getD c 0 - 1| ≤ EPSILON) &&
          (List.range m.length).all
            (fun k => (k == i) || decide (|getE m k c| ≤ EPSILON))
      | Option.none => true)

/-- A counterexample input: its pivot `1 + 1e-6` is within `EPSILON` of
`1`, so normalization is skipped and elimination leaves the residue
`1e-6 + 1e-12`, which exceeds `EPSILON` and is not snapped to zero. -/
def Meps : Matrix := [[1000001 / 1000000, 0], [-(1000001 / 1000000), 0]]

/-- Exact reduced row echelon form over the variable columns, the class of
matrices the amended claim C2 proves to be fixed points of the engine:
there are `r` pivot rows at the top; row `i < r` is exactly `0` before its
pivot column `pc i`, exactly `1` there; the pivot columns are strictly
increasing variable columns; a pivot column is exactly `0` in every other
row; and the rows below the pivot rows are exactly `0` in every variable
column. -/
structure RrefShape (m : Matrix) (r : ℕ) (pc : ℕ → ℕ) : Prop where
  r_le : r ≤ m.length
  pc_lt : ∀ i, i < r → pc i < (m.headD []).length - 1
  pc_mono : ∀ i j, i < j → j < r → pc i < pc j
  lead_one : ∀ i, i < r → getE m i (pc i) = 1
  lead_zero : ∀ i, i < r → ∀ j, j < pc i → getE m i j = 0
  col_clear : ∀ i, i < r → ∀ k, k < m.length → k ≠ i → getE m k (pc i) = 0
  tail_zero : ∀ k, r ≤ k → k < m.length →
    ∀ j, j < (m.headD []).length - 1 → getE m k j = 0

/-! Basic facts about `snap`, `getD` and the row operations. -/

theorem deepCopyMatrix_eq (m : Matrix) : deepCopyMatrix m = m := by
  simp [deepCopyMatrix]

theorem snap_zero : snap 0 = 0 := by simp [snap, EPSILON]

theorem snap_one : snap 1 = 1 := by
  simp only [snap]
  rw [if_neg]
  rw [abs_one]
  norm_num [EPSILON]

theorem snap_eq_or (v : ℚ) : snap v = 0 ∨ snap v = v := by
  unfold snap; split <;> simp

theorem getD_of_length_le {α : Type} (l : List α) (n : ℕ) (d : α)
    (h : l.length ≤ n) : l.getD n d = d := by
  rw [List.getD_eq_getElem?_getD, List.getElem?_eq_none h]; rfl

theorem lt_length_of_getD_ne (l : List ℚ) (n : ℕ) (h : l.getD n 0 ≠ 0) :
    n < l.length := by
  by_contra hc
  exact h (getD_of_length_le l n 0 (Nat.le_of_not_lt hc))

theorem row_lt_length_of_getD_ne (m : Matrix) (i : ℕ) (h : m.getD i [] ≠ []) :
    i < m.length := by
  by_contra hc
  exact h (getD_of_length_le m i [] (Nat.le_of_not_lt hc))

theorem getD_set_ne {α : Type} (l : List α) (i j : ℕ) (a d : α) (h : i ≠ j) :
    (l.set i a).getD j d = l.getD j d := by
  rw [List.getD_eq_getElem?_getD, List.getD_eq_getElem?_getD,
    List.getElem?_set_ne h]

theorem getD_set_self {α : Type} (l : List α) (i : ℕ) (a d : α)
    (h : i < l.length) : (l.set i a).getD i d = a := by
  rw [List.getD_eq_getElem?_getD, List.getElem?_set_eq_of_lt a h]; rfl

theorem snapRow_getD (row : List ℚ) (n : ℕ) :
    (snapRow row).getD n 0 = snap (row.getD n 0) := by
  rw [List.getD_eq_getElem?_getD, List.getD_eq_getElem?_getD, snapRow,
    List.getElem?_map]
  cases row[n]? <;> simp [snap_zero]

theorem snapRow_length (row : List ℚ) : (snapRow row).length = row.length := by
  simp [snapRow]

theorem divRow_getD (row : List ℚ) (pv : ℚ) (n : ℕ) :
    (row.map (fun el => el / pv)).getD n 0 = row.getD n 0 / pv := by
  rw [List.getD_eq_getElem?_getD, List.getD_eq_getElem?_getD, List.getElem?_map]
  cases row[n]? <;> simp

theorem rowCombine_length (row prow : List ℚ) (f : ℚ) :
    (rowCombine row f prow).length = row.length := by
  simp [rowCombine]

theorem rowCombine_getD (row prow : List ℚ) (f : ℚ) (n : ℕ)
    (h : n < row.length) :
    (rowCombine row f prow).getD n 0 = row.getD n 0 - f * prow.getD n 0 := by
  rw [List.getD_eq_getElem?_getD, rowCombine, List.getElem?_map,
    List.getElem?_range h]
  rfl

theorem getE_set_ne (m : Matrix) (i k j : ℕ) (row : List ℚ) (h : i ≠ k) :
    getE (m.set i row) k j = getE m k j := by
  unfold getE
  rw [getD_set_ne _ _ _ _ _ h]

theorem getE_set_self (m : Matrix) (i j : ℕ) (row : List ℚ)
    (h : i < m.length) : getE (m.set i row) i j = row.getD j 0 := by
  unfold getE
  rw [getD_set_self _ _ _ _ h]

theorem Inv.push {M : Matrix} {numRows : ℕ} {m : Matrix} {h : List Matrix}
    (hi : Inv M numRows (m, h)) (m' : Matrix) (hne : m' ≠ m)
    (hlen : m'.length = numRows) : Inv M numRows (m', h ++ [m']) := by
  obtain ⟨h1, h2, h3, h4⟩ := hi
  refine ⟨hlen, ?_, ?_, ?_⟩
  · rw [List.head?_append, h2]; rfl
  · exact List.getLast?_concat h
  · rw [List.chain'_append]
    refine ⟨h4, List.chain'_singleton m', ?_⟩
    intro x hx y hy
    rw [h3] at hx
    simp only [Option.mem_def, Option.some.injEq] at hx
    simp only [List.head?_cons, Option.mem_def, Option.some.injEq] at hy
    subst hx; subst hy
    exact fun he => hne he.symm

/-- Full specification of the partial-pivoting scan `findMaxRowAux`:
starting from candidate `mr0 < k` it returns either `mr0` or an index in
the scanned range, whose column entry dominates every scanned entry and
the candidate, strictly dominating every earlier index (the scan uses a
strict comparison, so ties keep the earliest index). -/
theorem findMaxRowAux_spec (m : Matrix) (c : ℕ) :
    ∀ (fuel k mr0 : ℕ), mr0 < k →
      (findMaxRowAux m c fuel k mr0 = mr0 ∨
        (k ≤ findMaxRowAux m c fuel k mr0 ∧
          findMaxRowAux m c fuel k mr0 < k + fuel)) ∧
      |getE m mr0 c| ≤ |getE m (findMaxRowAux m c fuel k mr0) c| ∧
      (∀ t, k ≤ t → t < k + fuel →
        |getE m t c| ≤ |getE m (findMaxRowAux m c fuel k mr0) c|) ∧
      (∀ t, k ≤ t → t < findMaxRowAux m c fuel k mr0 →
        |getE m t c| < |getE m (findMaxRowAux m c fuel k mr0) c|) ∧
      (findMaxRowAux m c fuel k mr0 ≠ mr0 →
        |getE m mr0 c| < |getE m (findMaxRowAux m c fuel k mr0) c|) := by
  intro fuel
  induction fuel with
  | zero =>
    intro k mr0 hlt
    have hz : findMaxRowAux m c 0 k mr0 = mr0 := rfl
    rw [hz]
    exact ⟨Or.inl rfl, le_refl _, fun t ht1 ht2 => absurd ht2 (by omega),
      fun t ht1 ht2 => absurd ht1 (by omega), fun hne => absurd rfl hne⟩
  | succ fuel ih =>
    intro k mr0 hlt
    simp only [findMaxRowAux]
    by_cases hc : |getE m k c| > |getE m mr0 c|
    · rw [if_pos hc]
      obtain ⟨i1, i2, i3, i4, i5⟩ := ih (k + 1) k (Nat.lt_succ_self k)
      refine ⟨?_, le_of_lt (lt_of_lt_of_le hc i2), ?_, ?_, fun _ => lt_of_lt_of_le hc i2⟩
      · rcases i1 with h | h
        · right; omega
        · right; omega
      · intro t ht1 ht2
        rcases Nat.eq_or_lt_of_le ht1 with he | hlt2
        · rw [← he]; exact i2
        · exact i3 t hlt2 (by omega)
      · intro t ht1 ht2
        rcases Nat.eq_or_lt_of_le ht1 with he | hlt2
        · rw [← he]; exact i5 (by omega)
        · exact i4 t hlt2 ht2
    · rw [if_neg hc]
      push_neg at hc
      obtain ⟨i1, i2, i3, i4, i5⟩ := ih (k + 1) mr0 (by omega)
      refine ⟨?_, i2, ?_, ?_, i5⟩
      · rcases i1 with h | h
        · exact Or.inl h
        · right; omega
      · intro t ht1 ht2
        rcases Nat.eq_or_lt_of_le ht1 with he | hlt2
        · rw [← he]; exact le_trans hc i2
        · exact i3 t hlt2 (by omega)
      · intro t ht1 ht2
        rcases Nat.eq_or_lt_of_le ht1 with he | hlt2
        · rw [← he]; exact lt_of_le_of_lt hc (i5 (by omega))
        · exact i4 t hlt2 ht2

/-- The partial-pivoting scan as invoked by the forward loop: the chosen
row lies in `[pivotRow, numRows)`, dominates every candidate entry, and
strictly dominates every earlier candidate. -/
theorem findMaxRow_bounds (m : Matrix) (c pivotRow numRows : ℕ)
    (h : pivotRow < numRows) :
    pivotRow ≤ findMaxRowAux m c (numRows - (pivotRow + 1)) (pivotRow + 1) pivotRow ∧
    findMaxRowAux m c (numRows - (pivotRow + 1)) (pivotRow + 1) pivotRow < numRows ∧
    (∀ k, pivotRow ≤ k → k < numRows →
      |getE m k c| ≤
        |getE m (findMaxRowAux m c (numRows - (pivotRow + 1)) (pivotRow + 1) pivotRow) c|) ∧
    (∀ k, pivotRow ≤ k →
      k < findMaxRowAux m c (numRows - (pivotRow + 1)) (pivotRow + 1) pivotRow →
      |getE m k c| <
        |getE m (findMaxRowAux m c (numRows - (pivotRow + 1)) (pivotRow + 1) pivotRow) c|) ∧
    (findMaxRowAux m c (numRows - (pivotRow + 1)) (pivotRow + 1) pivotRow ≠ pivotRow →
      |getE m pivotRow c| <
        |getE m (findMaxRowAux m c (numRows - (pivotRow + 1)) (pivotRow + 1) pivotRow) c|) := by
  obtain ⟨i1, i2, i3, i4, i5⟩ :=
    findMaxRowAux_spec m c (numRows - (pivotRow + 1)) (pivotRow + 1) pivotRow
      (Nat.lt_succ_self pivotRow)
  have hsum : pivotRow + 1 + (numRows - (pivotRow + 1)) = numRows := by omega
  refine ⟨?_, ?_, ?_, ?_, i5⟩
  · rcases i1 with he | hr
    · omega
    · omega
  · rcases i1 with he | hr
    · omega
    · omega
  · intro k hk1 hk2
    rcases Nat.eq_or_lt_of_le hk1 with he | hlt2
    · rw [← he]; exact i2
    · exact i3 k hlt2 (by omega)
  · intro k hk1 hk2
    rcases Nat.eq_or_lt_of_le hk1 with he | hlt2
    · rw [← he]; exact i5 (by omega)
    · exact i4 k hlt2 hk2

/-- A pivot column reported by `findPivotColAux` holds a value within
`EPSILON` of `1`. -/
theorem findPivotColAux_some (row : List ℚ) :
    ∀ (fuel j c : ℕ), findPivotColAux row fuel j = some c →
      |row.getD c 0 - 1| < EPSILON := by
  intro fuel
  induction fuel with
  | zero => intro j c h; simp [findPivotColAux] at h
  | succ fuel ih =>
    intro j c h
    simp only [findPivotColAux] at h
    by_cases h1 : |row.getD j 0 - 1| < EPSILON
    · rw [if_pos h1] at h
      by_cases h2 : isLeadingUpTo row j = true
      · rw [if_pos h2] at h
        obtain rfl : j = c := by simpa using h
        exact h1
      · rw [if_neg h2] at h
        exact ih _ _ h
    · rw [if_neg h1] at h
      by_cases h3 : |row.getD j 0| > EPSILON
      · rw [if_pos h3] at h; simp at h
      · rw [if_neg h3] at h
        exact ih _ _ h

/-- A value within `EPSILON` of `1` is nonzero. -/
theorem ne_zero_of_near_one {v : ℚ} (h : |v - 1| < EPSILON) : v ≠ 0 := by
  intro he
  rw [he] at h
  norm_num [EPSILON] at h

/-- A value no farther than `EPSILON` from `1` is nonzero. -/
theorem ne_zero_of_close_one {v : ℚ} (h : ¬ EPSILON < |v - 1|) : v ≠ 0 := by
  intro he
  rw [he] at h
  norm_num [EPSILON] at h

/-- A value of absolute value at least `EPSILON` is nonzero. -/
theorem ne_zero_of_eps_le {v : ℚ} (h : ¬ |v| < EPSILON) : v ≠ 0 := by
  intro he
  rw [he] at h
  norm_num [EPSILON] at h

/-- An eliminated entry differs from the original entry: with a nonzero
pivot value `p` and an elimination factor exceeding `EPSILON` in absolute
value, `snap (factor - factor * p) ≠ factor`. -/
theorem snap_elim_ne {factor p : ℚ} (hf : EPSILON < |factor|) (hp : p ≠ 0) :
    snap (factor - factor * p) ≠ factor := by
  have hf0 : factor ≠ 0 := by
    intro he; rw [he] at hf; norm_num [EPSILON] at hf
  rcases snap_eq_or (factor - factor * p) with h | h <;> rw [h]
  · exact fun he => hf0 he.symm
  · intro he
    have : factor * p = 0 := by linarith
    exact hp (by
      rcases mul_eq_zero.1 this with h' | h'
      · exact absurd h' hf0
      · exact h')

/-- The forward elimination loop preserves the history invariant (every
snapshot it appends changes the matrix), and does not touch the pivot row.
The hypothesis is that the pivot entry is nonzero, which the caller
guarantees (the pivot is exactly `1` after scaling, or within `EPSILON`
of `1` when scaling was skipped). -/
theorem elimLoop_pres (M : Matrix) (numRows pivotRow pivotCol : ℕ) :
    ∀ (fuel i : ℕ) (m : Matrix) (h : List Matrix),
      Inv M numRows (m, h) →
      getE m pivotRow pivotCol ≠ 0 →
      Inv M numRows (elimLoop pivotRow pivotCol fuel i m h) ∧
        getE (elimLoop pivotRow pivotCol fuel i m h).1 pivotRow pivotCol =
          getE m pivotRow pivotCol := by
  intro fuel
  induction fuel with
  | zero => intro i m h hi hp; exact ⟨hi, rfl⟩
  | succ fuel ih =>
    intro i m h hi hp
    simp only [elimLoop]
    by_cases hie : i = pivotRow
    · rw [if_pos hie]
      exact ih (i + 1) m h hi hp
    · rw [if_neg hie]
      by_cases hf : |getE m i pivotCol| > EPSILON
      · rw [if_pos hf]
        have hf0 : getE m i pivotCol ≠ 0 := by
          intro he; rw [he] at hf; norm_num [EPSILON] at hf
        have hcol : pivotCol < (m.getD i []).length :=
          lt_length_of_getD_ne _ _ hf0
        have hrow : i < m.length := by
          apply row_lt_length_of_getD_ne
          intro he
          apply hf0
          unfold getE
          rw [he]
          simp
        set newRow := snapRow
          (rowCombine (m.getD i []) (getE m i pivotCol) (m.getD pivotRow []))
          with hnr
        set m' := m.set i newRow with hm'
        have hnew : newRow.getD pivotCol 0 =
            snap (getE m i pivotCol -
              getE m i pivotCol * getE m pivotRow pivotCol) := by
          rw [hnr, snapRow_getD, rowCombine_getD _ _ _ _ hcol]
          rfl
        have hne : m' ≠ m := by
          intro he
          have h1 : getE m' i pivotCol = newRow.getD pivotCol 0 :=
            getE_set_self m i pivotCol newRow hrow
          rw [he, hnew] at h1
          exact snap_elim_ne hf hp h1.symm
        have hlen : m'.length = numRows := by
          rw [hm', List.length_set]; exact hi.1
        have hinv' : Inv M numRows (m', h ++ [deepCopyMatrix m']) := by
          rw [deepCopyMatrix_eq]; exact hi.push m' hne hlen
        have hppres : getE m' pivotRow pivotCol = getE m pivotRow pivotCol :=
          getE_set_ne m i pivotRow pivotCol newRow hie
        obtain ⟨r1, r2⟩ := ih (i + 1) m' (h ++ [deepCopyMatrix m']) hinv'
          (by rw [hppres]; exact hp)
        exact ⟨r1, by rw [r2, hppres]⟩
      · rw [if_neg hf]
        exact ih (i + 1) m h hi hp

/-- The back-substitution elimination loop preserves the history
invariant; its pivot row `i` lies above no processed row (`fuel ≤ i`), so
the pivot entry is untouched. -/
theorem backElimLoop_pres (M : Matrix) (numRows i pivotCol : ℕ) :
    ∀ (fuel : ℕ) (m : Matrix) (h : List Matrix), fuel ≤ i →
      Inv M numRows (m, h) →
      getE m i pivotCol ≠ 0 →
      Inv M numRows (backElimLoop i pivotCol fuel m h) := by
  intro fuel
  induction fuel with
  | zero => intro m h hfi hi hp; exact hi
  | succ fuel ih =>
    intro m h hfi hi hp
    simp only [backElimLoop]
    by_cases hf : |getE m fuel pivotCol| > EPSILON
    · rw [if_pos hf]
      have hke : fuel ≠ i := by omega
      have hf0 : getE m fuel pivotCol ≠ 0 := by
        intro he; rw [he] at hf; norm_num [EPSILON] at hf
      have hcol : pivotCol < (m.getD fuel []).length :=
        lt_length_of_getD_ne _ _ hf0
      have hrow : fuel < m.length := by
        apply row_lt_length_of_getD_ne
        intro he
        apply hf0
        unfold getE
        rw [he]
        simp
      set newRow := snapRow
        (rowCombine (m.getD fuel []) (getE m fuel pivotCol) (m.getD i []))
        with hnr
      set m' := m.set fuel newRow with hm'
      have hnew : newRow.getD pivotCol 0 =
          snap (getE m fuel pivotCol -
            getE m fuel pivotCol * getE m i pivotCol) := by
        rw [hnr, snapRow_getD, rowCombine_getD _ _ _ _ hcol]
        rfl
      have hne : m' ≠ m := by
        intro he
        have h1 : getE m' fuel pivotCol = newRow.getD pivotCol 0 :=
          getE_set_self m fuel pivotCol newRow hrow
        rw [he, hnew] at h1
        exact snap_elim_ne hf hp h1.symm
      have hlen : m'.length = numRows := by
        rw [hm', List.length_set]; exact hi.1
      have hinv' : Inv M numRows (m', h ++ [deepCopyMatrix m']) := by
        rw [deepCopyMatrix_eq]; exact hi.push m' hne hlen
      have hppres : getE m' i pivotCol = getE m i pivotCol :=
        getE_set_ne m fuel i pivotCol newRow hke
      exact ih m' (h ++ [deepCopyMatrix m']) (by omega) hinv'
        (by rw [hppres]; exact hp)
    · rw [if_neg hf]
      exact ih m h (by omega) hi hp

/-- The forward phase preserves the history invariant. -/
theorem fwdLoop_pres (M : Matrix) (numRows numCols : ℕ) :
    ∀ (fuel pivotCol pivotRow : ℕ) (m : Matrix) (h : List Matrix),
      Inv M numRows (m, h) →
      Inv M numRows (fwdLoop numRows numCols fuel pivotCol pivotRow m h) := by
  intro fuel
  induction fuel with
  | zero => intro pivotCol pivotRow m h hi; exact hi
  | succ fuel ih =>
    intro pivotCol pivotRow m h hi
    simp only [fwdLoop]
    by_cases hnr : numRows ≤ pivotRow
    · rw [if_pos hnr]; exact hi
    · rw [if_neg hnr]
      push_neg at hnr
      obtain ⟨b1, b2, b3, b4, b5⟩ := findMaxRow_bounds m pivotCol pivotRow numRows hnr
      set maxRow := findMaxRowAux m pivotCol (numRows - (pivotRow + 1))
        (pivotRow + 1) pivotRow with hmx
      by_cases hsm : |getE m maxRow pivotCol| < EPSILON
      · rw [if_pos hsm]
        exact ih _ _ m h hi
      · rw [if_neg hsm]
        by_cases hsw : maxRow = pivotRow
        · rw [if_pos hsw, if_pos hsw]
          -- no swap: the pivot entry is the scanned maximum itself
          have hpv : getE m pivotRow pivotCol = getE m maxRow pivotCol := by
            rw [hsw]
          have hpv0 : getE m pivotRow pivotCol ≠ 0 := by
            rw [hpv]; exact ne_zero_of_eps_le hsm
          by_cases hsc : |getE m pivotRow pivotCol - 1| > EPSILON
          · rw [if_pos hsc, if_pos hsc]
            have hcol : pivotCol < (m.getD pivotRow []).length :=
              lt_length_of_getD_ne _ _ hpv0
            have hrowlt : pivotRow < m.length := by
              rw [hi.1]; exact hnr
            set newRow := snapRow ((m.getD pivotRow []).map
              (fun el => el / getE m pivotRow pivotCol)) with hnr2
            set m2 := m.set pivotRow newRow with hm2
            have hnew : newRow.getD pivotCol 0 = 1 := by
              rw [hnr2, snapRow_getD, divRow_getD]
              have : (m.getD pivotRow []).getD pivotCol 0 =
                  getE m pivotRow pivotCol := rfl
              rw [this, div_self hpv0, snap_one]
            have hpv2 : getE m2 pivotRow pivotCol = 1 := by
              rw [hm2, getE_set_self m pivotRow pivotCol newRow hrowlt, hnew]
            have hne2 : m2 ≠ m := by
              intro he
              rw [he] at hpv2
              rw [hpv2] at hsc
              norm_num [EPSILON] at hsc
            have hlen2 : m2.length = numRows := by
              rw [hm2, List.length_set]; exact hi.1
            have hinv2 : Inv M numRows (m2, h ++ [deepCopyMatrix m2]) := by
              rw [deepCopyMatrix_eq]; exact hi.push m2 hne2 hlen2
            obtain ⟨r1, _⟩ := elimLoop_pres M numRows pivotRow pivotCol numRows 0
              m2 (h ++ [deepCopyMatrix m2]) hinv2 (by rw [hpv2]; norm_num)
            exact ih _ _ _ _ r1
          · rw [if_neg hsc, if_neg hsc]
            obtain ⟨r1, _⟩ := elimLoop_pres M numRows pivotRow pivotCol numRows 0
              m h hi hpv0
            exact ih _ _ _ _ r1
        · rw [if_neg hsw, if_neg hsw]
          have hrowlt : pivotRow < m.length := by
            rw [hi.1]; exact hnr
          set m1 := (m.set pivotRow (m.getD maxRow [])).set maxRow
            (m.getD pivotRow []) with hm1
          have h1pv : getE m1 pivotRow pivotCol = getE m maxRow pivotCol := by
            rw [hm1, getE_set_ne _ _ _ _ _ hsw,
              getE_set_self m pivotRow pivotCol _ hrowlt]
            rfl
          have hm1ne : m1 ≠ m := by
            intro he
            have habs : |getE m pivotRow pivotCol| < |getE m maxRow pivotCol| :=
              b5 hsw
            rw [he] at h1pv
            rw [h1pv] at habs
            exact lt_irrefl _ habs
          have hm1len : m1.length = numRows := by
            rw [hm1, List.length_set, List.length_set]; exact hi.1
          have hinv1 : Inv M numRows (m1, h ++ [deepCopyMatrix m1]) := by
            rw [deepCopyMatrix_eq]; exact hi.push m1 hm1ne hm1len
          have hpv0 : getE m1 pivotRow pivotCol ≠ 0 := by
            rw [h1pv]; exact ne_zero_of_eps_le hsm
          by_cases hsc : |getE m1 pivotRow pivotCol - 1| > EPSILON
          · rw [if_pos hsc, if_pos hsc]
            have hcol : pivotCol < (m1.getD pivotRow []).length :=
              lt_length_of_getD_ne _ _ hpv0
            have hrowlt1 : pivotRow < m1.length := by
              rw [hm1len]; exact hnr
            set newRow := snapRow ((m1.getD pivotRow []).map
              (fun el => el / getE m1 pivotRow pivotCol)) with hnr2
            set m2 := m1.set pivotRow newRow with hm2
            have hnew : newRow.getD pivotCol 0 = 1 := by
              rw [hnr2, snapRow_getD, divRow_getD]
              have : (m1.getD pivotRow []).getD pivotCol 0 =
                  getE m1 pivotRow pivotCol := rfl
              rw [this, div_self hpv0, snap_one]
            have hpv2 : getE m2 pivotRow pivotCol = 1 := by
              rw [hm2, getE_set_self m1 pivotRow pivotCol newRow hrowlt1, hnew]
            have hne2 : m2 ≠ m1 := by
              intro he
              rw [he] at hpv2
              rw [hpv2] at hsc
              norm_num [EPSILON] at hsc
            have hlen2 : m2.length = numRows := by
              rw [hm2, List.length_set]; exact hm1len
            have hinv2 : Inv M numRows
                (m2, (h ++ [deepCopyMatrix m1]) ++ [deepCopyMatrix m2]) := by
              rw [deepCopyMatrix_eq, deepCopyMatrix_eq]
              rw [deepCopyMatrix_eq] at hinv1
              exact hinv1.push m2 hne2 hlen2
            obtain ⟨r1, _⟩ := elimLoop_pres M numRows pivotRow pivotCol numRows 0
              m2 ((h ++ [deepCopyMatrix m1]) ++ [deepCopyMatrix m2]) hinv2
              (by rw [hpv2]; norm_num)
            exact ih _ _ _ _ r1
          · rw [if_neg hsc, if_neg hsc]
            obtain ⟨r1, _⟩ := elimLoop_pres M numRows pivotRow pivotCol numRows 0
              m1 (h ++ [deepCopyMatrix m1]) hinv1 hpv0
            exact ih _ _ _ _ r1

/-- The back-substitution phase preserves the history invariant. -/
theorem backLoop_pres (M : Matrix) (numRows numCols : ℕ) :
    ∀ (fuel : ℕ) (m : Matrix) (h : List Matrix),
      Inv M numRows (m, h) →
      Inv M numRows (backLoop numCols fuel m h) := by
  intro fuel
  induction fuel with
  | zero => intro m h hi; exact hi
  | succ fuel ih =>
    intro m h hi
    simp only [backLoop]
    cases hfp : findPivotColAux (m.getD fuel []) (numCols - 1) 0 with
    | some pivotCol =>
      have hnear : |getE m fuel pivotCol - 1| < EPSILON :=
        findPivotColAux_some (m.getD fuel []) (numCols - 1) 0 pivotCol hfp
      have hp0 : getE m fuel pivotCol ≠ 0 := ne_zero_of_near_one hnear
      exact ih _ _ (backElimLoop_pres M numRows fuel pivotCol fuel m h
        (le_refl fuel) hi hp0)
    | none =>
      exact ih m h hi

/-- The complete run establishes the history invariant from the initial
one-snapshot state. -/
theorem rrefRun_inv (M : Matrix) : Inv M M.length (rrefRun M) := by
  have hbase : Inv M M.length (M, [M]) :=
    ⟨rfl, rfl, by simp, List.chain'_singleton M⟩
  unfold rrefRun
  simp only [deepCopyMatrix_eq]
  by_cases h0 : M.length = 0
  · rw [if_pos h0]; exact hbase
  · rw [if_neg h0]
    by_cases h1 : (M.headD []).length = 0
    · rw [if_pos h1]; exact hbase
    · rw [if_neg h1]
      exact backLoop_pres M M.length _ _ _ _
        (fwdLoop_pres M M.length _ _ _ _ M [M] hbase)

/-- C1, counterexample: for the rectangular nonempty input `Meps`, the
last element of the history returned by `calculateRrefSteps` does not
satisfy the claimed RREF predicate (the unnormalized pivot `1 + 1e-6`
leaves the residue `1e-6 + 1e-12` in its column). -/
theorem C1_counterexample :
    Meps ≠ [] ∧ (∀ row ∈ Meps, row.length = 2) ∧
      isRrefUpToEps ((calculateRrefSteps Meps).getLastD []) = false := by
  refine ⟨by decide, by decide, by decide⟩

/-- C1 (amended): for every input matrix, the history returned by
`calculateRrefSteps` is nonempty, its first element equals the input, and
its last element equals the final working matrix of the elimination (the
matrix component of `rrefRun`); that last element need not satisfy the
RREF predicate. -/
theorem C1_theorem (M : Matrix) :
    calculateRrefSteps M ≠ [] ∧ (calculateRrefSteps M).head? = some M ∧
      (calculateRrefSteps M).getLast? = some (rrefRun M).1 := by
  obtain ⟨_, h2, h3, _⟩ := rrefRun_inv M
  refine ⟨?_, h2, h3⟩
  intro he
  have he' : (rrefRun M).2 = [] := he
  rw [he'] at h2
  simp at h2

/-- C6: for a non-empty rectangular input matrix, any two consecutive
snapshots in the returned history are unequal matrices (a snapshot is
appended only when the working matrix actually changes). -/
theorem C6_theorem (M : Matrix) (hne : M ≠ [])
    (hrect : ∀ row ∈ M, row.length = (M.headD []).length)
    (hcols : (M.headD []).length ≠ 0) :
    List.Chain' (fun a b => a ≠ b) (calculateRrefSteps M) :=
  (rrefRun_inv M).2.2.2

/-- Witness for C6 at the concrete input `[[2,2],[0,0]]`. -/
theorem C6_witness :
    List.Chain' (fun a b => a ≠ b) (calculateRrefSteps [[2, 2], [0, 0]]) := by
  apply C6_theorem
  · decide
  · decide
  · decide

/-- The partial-pivoting scan keeps its candidate when no scanned entry
strictly dominates it. -/
theorem findMaxRowAux_const (m : Matrix) (c : ℕ) :
    ∀ (fuel k mr0 : ℕ),
      (∀ t, k ≤ t → t < k + fuel → ¬ |getE m mr0 c| < |getE m t c|) →
      findMaxRowAux m c fuel k mr0 = mr0 := by
  intro fuel
  induction fuel with
  | zero => intro k mr0 _; rfl
  | succ fuel ih =>
    intro k mr0 hdom
    simp only [findMaxRowAux]
    rw [if_neg (hdom k (le_refl k) (by omega))]
    exact ih (k + 1) mr0 (fun t ht1 ht2 => hdom t (by omega) (by omega))

/-- The forward elimination loop is the identity when every processed
factor is within `EPSILON`. -/
theorem elimLoop_noop (pivotRow pivotCol : ℕ) (m : Matrix) (h : List Matrix) :
    ∀ (fuel i : ℕ),
      (∀ t, i ≤ t → t < i + fuel → t ≠ pivotRow →
        ¬ |getE m t pivotCol| > EPSILON) →
      elimLoop pivotRow pivotCol fuel i m h = (m, h) := by
  intro fuel
  induction fuel with
  | zero => intro i _; rfl
  | succ fuel ih =>
    intro i hsm
    simp only [elimLoop]
    by_cases hie : i = pivotRow
    · rw [if_pos hie]
      exact ih (i + 1) (fun t ht1 ht2 => hsm t (by omega) (by omega))
    · rw [if_neg hie, if_neg (hsm i (le_refl i) (by omega) hie)]
      exact ih (i + 1) (fun t ht1 ht2 => hsm t (by omega) (by omega))

/-- The back-substitution elimination loop is the identity when every
factor above the pivot row is within `EPSILON`. -/
theorem backElimLoop_noop (i pivotCol : ℕ) (m : Matrix) (h : List Matrix) :
    ∀ (fuel : ℕ),
      (∀ t, t < fuel → ¬ |getE m t pivotCol| > EPSILON) →
      backElimLoop i pivotCol fuel m h = (m, h) := by
  intro fuel
  induction fuel with
  | zero => intro _; rfl
  | succ fuel ih =>
    intro hsm
    simp only [backElimLoop]
    rw [if_neg (hsm fuel (by omega))]
    exact ih (fun t ht => hsm t (by omega))

/-- The pivot detection returns nothing on a scan range of exact zeros. -/
theorem findPivotColAux_zeros (row : List ℚ) :
    ∀ (fuel j : ℕ),
      (∀ t, j ≤ t → t < j + fuel → row.getD t 0 = 0) →
      findPivotColAux row fuel j = Option.none := by
  intro fuel
  induction fuel with
  | zero => intro j _; rfl
  | succ fuel ih =>
    intro j hz
    simp only [findPivotColAux]
    rw [hz j (le_refl j) (by omega)]
    rw [if_neg (by norm_num [EPSILON])]
    rw [if_neg (by norm_num [EPSILON])]
    exact ih (j + 1) (fun t ht1 ht2 => hz t (by omega) (by omega))

/-- The pivot detection finds an exact leading `1` preceded by exact
zeros. -/
theorem findPivotColAux_pivot (row : List ℚ) (c : ℕ)
    (hz : ∀ t, t < c → row.getD t 0 = 0) (h1 : row.getD c 0 = 1) :
    ∀ (fuel j : ℕ), j ≤ c → c < j + fuel →
      findPivotColAux row fuel j = some c := by
  intro fuel
  induction fuel with
  | zero => intro j hj1 hj2; omega
  | succ fuel ih =>
    intro j hj1 hj2
    simp only [findPivotColAux]
    rcases Nat.eq_or_lt_of_le hj1 with he | hlt
    · rw [he, h1]
      rw [if_pos (by norm_num [EPSILON])]
      rw [if_pos ?_]
      rw [isLeadingUpTo, List.all_eq_true]
      intro k hk
      rw [List.mem_range] at hk
      rw [hz k hk]
      simp [EPSILON]
    · rw [hz j hlt]
      rw [if_neg (by norm_num [EPSILON])]
      rw [if_neg (by norm_num [EPSILON])]
      exact ih (j + 1) hlt (by omega)

/-- The forward phase leaves an exact-RREF matrix unchanged and records
no snapshot.  The invariant ties the pivot-row counter to the number of
pivot columns already passed. -/
theorem fwdLoop_noop {m : Matrix} {r : ℕ} {pc : ℕ → ℕ} (hs : RrefShape m r pc) :
    ∀ (fuel pivotCol pivotRow : ℕ) (h : List Matrix),
      pivotCol + fuel ≤ (m.headD []).length - 1 →
      pivotRow ≤ r →
      (∀ j, j < r → (pc j < pivotCol ↔ j < pivotRow)) →
      fwdLoop m.length (m.headD []).length fuel pivotCol pivotRow m h = (m, h) := by
  intro fuel
  induction fuel with
  | zero => intro pivotCol pivotRow h _ _ _; rfl
  | succ fuel ih =>
    intro pivotCol pivotRow h hcols hpr hiff
    simp only [fwdLoop]
    by_cases hnr : m.length ≤ pivotRow
    · rw [if_pos hnr]
    · rw [if_neg hnr]
      push_neg at hnr
      by_cases hpiv : pivotRow < r ∧ pc pivotRow = pivotCol
      · obtain ⟨hprr, hpcc⟩ := hpiv
        have hlead : getE m pivotRow pivotCol = 1 := by
          rw [← hpcc]; exact hs.lead_one pivotRow hprr
        have hcol0 : ∀ k, k < m.length → k ≠ pivotRow → getE m k pivotCol = 0 := by
          intro k hk hke
          rw [← hpcc]; exact hs.col_clear pivotRow hprr k hk hke
        have hmax : findMaxRowAux m pivotCol (m.length - (pivotRow + 1))
            (pivotRow + 1) pivotRow = pivotRow := by
          apply findMaxRowAux_const
          intro t ht1 ht2
          rw [hcol0 t (by omega) (by omega), hlead]
          norm_num
        rw [hmax, hlead]
        rw [if_neg (by norm_num [EPSILON] : ¬ |(1 : ℚ)| < EPSILON)]
        rw [if_pos (rfl : pivotRow = pivotRow)]
        rw [if_pos (rfl : pivotRow = pivotRow)]
        rw [hlead]
        rw [if_neg (by norm_num [EPSILON] : ¬ |(1 : ℚ) - 1| > EPSILON)]
        rw [if_neg (by norm_num [EPSILON] : ¬ |(1 : ℚ) - 1| > EPSILON)]
        rw [elimLoop_noop pivotRow pivotCol m h m.length 0 ?_]
        · have hinj : ∀ j, j < r → pc j = pivotCol → j = pivotRow := by
            intro j hj hpj
            rcases lt_trichotomy j pivotRow with h' | h' | h'
            · have := (hiff j hj).2 h'
              rw [hpj] at this
              omega
            · exact h'
            · have hm := hs.pc_mono pivotRow j h' hj
              rw [hpj, hpcc] at hm
              omega
          apply ih (pivotCol + 1) (pivotRow + 1) h (by omega) hprr
          intro j hj
          constructor
          · intro hlt
            rcases Nat.lt_succ_iff_lt_or_eq.1 hlt with h' | h'
            · have := (hiff j hj).1 h'
              omega
            · have := hinj j hj h'
              omega
          · intro hlt
            rcases Nat.lt_succ_iff_lt_or_eq.1 hlt with h' | h'
            · have := (hiff j hj).2 h'
              omega
            · rw [h', hpcc]
              omega
        · intro t ht1 ht2 hte
          rw [hcol0 t (by omega) hte]
          norm_num [EPSILON]
      · have hne2 : ∀ j, j < r → pc j ≠ pivotCol := by
          intro j hj he
          rcases lt_trichotomy j pivotRow with h' | h' | h'
          · have := (hiff j hj).2 h'
            rw [he] at this
            omega
          · exact hpiv ⟨by omega, by rw [← h']; exact he⟩
          · have hprr : pivotRow < r := by omega
            have hm := hs.pc_mono pivotRow j h' hj
            rw [he] at hm
            have := (hiff pivotRow hprr).1 hm
            omega
        have hzero : ∀ k, pivotRow ≤ k → k < m.length → getE m k pivotCol = 0 := by
          intro k hk1 hk2
          by_cases hkr : k < r
          · have h1 : ¬ pc k < pivotCol := by
              intro hc
              have := (hiff k hkr).1 hc
              omega
            have h2 : pivotCol < pc k :=
              lt_of_le_of_ne (by omega) (fun he => hne2 k hkr he.symm)
            exact hs.lead_zero k hkr pivotCol h2
          · push_neg at hkr
            exact hs.tail_zero k hkr hk2 pivotCol (by omega)
        have hmax : findMaxRowAux m pivotCol (m.length - (pivotRow + 1))
            (pivotRow + 1) pivotRow = pivotRow := by
          apply findMaxRowAux_const
          intro t ht1 ht2
          rw [hzero t (by omega) (by omega), hzero pivotRow (le_refl _) hnr]
          norm_num
        rw [hmax]
        rw [if_pos (by rw [hzero pivotRow (le_refl _) hnr]; norm_num [EPSILON])]
        apply ih (pivotCol + 1) pivotRow h (by omega) hpr
        intro j hj
        constructor
        · intro hlt
          rcases Nat.lt_succ_iff_lt_or_eq.1 hlt with h' | h'
          · exact (hiff j hj).1 h'
          · exact absurd h' (hne2 j hj)
        · intro hlt
          have := (hiff j hj).2 hlt
          omega

/-- The back-substitution phase leaves an exact-RREF matrix unchanged and
records no snapshot. -/
theorem backLoop_noop {m : Matrix} {r : ℕ} {pc : ℕ → ℕ} (hs : RrefShape m r pc) :
    ∀ (fuel : ℕ) (h : List Matrix), fuel ≤ m.length →
      backLoop (m.headD []).length fuel m h = (m, h) := by
  intro fuel
  induction fuel with
  | zero => intro h _; rfl
  | succ fuel ih =>
    intro h hle
    simp only [backLoop]
    by_cases hfr : fuel < r
    · have hfp : findPivotColAux (m.getD fuel []) ((m.headD []).length - 1) 0 =
          some (pc fuel) := by
        apply findPivotColAux_pivot
        · intro t ht
          exact hs.lead_zero fuel hfr t ht
        · exact hs.lead_one fuel hfr
        · omega
        · have := hs.pc_lt fuel hfr
          omega
      rw [hfp]
      have hb : backElimLoop fuel (pc fuel) fuel m h = (m, h) := by
        apply backElimLoop_noop
        intro t ht
        rw [hs.col_clear fuel hfr t (by omega) (by omega)]
        norm_num [EPSILON]
      show backLoop (m.headD []).length fuel
        (backElimLoop fuel (pc fuel) fuel m h).1
        (backElimLoop fuel (pc fuel) fuel m h).2 = (m, h)
      rw [hb]
      exact ih h (by omega)
    · push_neg at hfr
      have hfp : findPivotColAux (m.getD fuel []) ((m.headD []).length - 1) 0 =
          Option.none := by
        apply findPivotColAux_zeros
        intro t ht1 ht2
        exact hs.tail_zero fuel hfr (by omega) t (by omega)
      rw [hfp]
      exact ih h (by omega)

/-- C2, counterexample: the last snapshot of the run on `Meps` is not a
fixed point of the engine — re-running `calculateRrefSteps` on it yields
a history of length 2, not 1 (the leftover residue `1e-6 + 1e-12` gets
eliminated on the second run). -/
theorem C2_counterexample :
    (calculateRrefSteps ((calculateRrefSteps Meps).getLastD [])).length ≠ 1 := by
  decide

/-- C2 (amended): every matrix in exact reduced row echelon form over its
variable columns (`RrefShape`) is a fixed point of the engine:
`calculateRrefSteps` returns the one-element history containing exactly
the input.  The last snapshot of an arbitrary run need not have this
form, as the counterexample shows. -/
theorem C2_theorem (F : Matrix) (r : ℕ) (pc : ℕ → ℕ) (hs : RrefShape F r pc) :
    calculateRrefSteps F = [F] := by
  unfold calculateRrefSteps rrefRun
  simp only [deepCopyMatrix_eq]
  by_cases h0 : F.length = 0
  · rw [if_pos h0]
  · rw [if_neg h0]
    by_cases h1 : (F.headD []).length = 0
    · rw [if_pos h1]
    · rw [if_neg h1]
      have hf : fwdLoop F.length (F.headD []).length ((F.headD []).length - 1)
          0 0 F [F] = (F, [F]) := by
        apply fwdLoop_noop hs ((F.headD []).length - 1) 0 0 [F] (by omega)
          (by omega)
        intro j hj
        omega
      show (backLoop (F.headD []).length F.length
        (fwdLoop F.length (F.headD []).length ((F.headD []).length - 1)
          0 0 F [F]).1
        (fwdLoop F.length (F.headD []).length ((F.headD []).length - 1)
          0 0 F [F]).2).2 = [F]
      rw [hf]
      rw [backLoop_noop hs F.length [F] (le_refl _)]

/-- Witness for C2 at the exact-RREF matrix `[[1,2,0,3],[0,0,1,4]]`
(pivot columns 0 and 2). -/
theorem C2_witness :
    calculateRrefSteps [[1, 2, 0, 3], [0, 0, 1, 4]] =
      [[[1, 2, 0, 3], [0, 0, 1, 4]]] := by
  apply C2_theorem [[1, 2, 0, 3], [0, 0, 1, 4]] 2 (fun i => 2 * i)
  refine ⟨by decide, ?_, ?_, ?_, ?_, ?_, ?_⟩
  · intro i hi
    interval_cases i <;> decide
  · intro i j hij hj
    omega
  · intro i hi
    interval_cases i <;> decide
  · intro i hi j hj
    interval_cases i <;> [omega; skip]
    interval_cases j <;> decide
  · intro i hi k hk hki
    have hk2 : k < 2 := by simpa using hk
    interval_cases i <;> interval_cases k <;> first
      | exact absurd rfl hki
      | decide
  · intro k h1 h2 j hj
    have hk2 : k < 2 := by simpa using h2
    omega

/-- C5: the partial-pivoting selection of the forward loop picks, among
the rows at or below the pivot row, the one with the largest absolute
value in the pivot column, ties broken toward the earliest index (the
scan uses strict comparison); and when that maximum is below `EPSILON`
the column is skipped: the loop proceeds to the next column with the same
pivot row, the same matrix, and the same (snapshot-free) history. -/
theorem C5_theorem (m : Matrix) (numRows numCols fuel pivotCol pivotRow : ℕ)
    (h : List Matrix) (hpr : pivotRow < numRows) :
    (pivotRow ≤ findMaxRowAux m pivotCol (numRows - (pivotRow + 1))
        (pivotRow + 1) pivotRow ∧
      findMaxRowAux m pivotCol (numRows - (pivotRow + 1))
        (pivotRow + 1) pivotRow < numRows) ∧
    (∀ k, pivotRow ≤ k → k < numRows →
      |getE m k pivotCol| ≤
        |getE m (findMaxRowAux m pivotCol (numRows - (pivotRow + 1))
          (pivotRow + 1) pivotRow) pivotCol|) ∧
    (∀ k, pivotRow ≤ k →
      k < findMaxRowAux m pivotCol (numRows - (pivotRow + 1))
        (pivotRow + 1) pivotRow →
      |getE m k pivotCol| <
        |getE m (findMaxRowAux m pivotCol (numRows - (pivotRow + 1))
          (pivotRow + 1) pivotRow) pivotCol|) ∧
    (|getE m (findMaxRowAux m pivotCol (numRows - (pivotRow + 1))
        (pivotRow + 1) pivotRow) pivotCol| < EPSILON →
      fwdLoop numRows numCols (fuel + 1) pivotCol pivotRow m h =
        fwdLoop numRows numCols fuel (pivotCol + 1) pivotRow m h) := by
  obtain ⟨b1, b2, b3, b4, b5⟩ := findMaxRow_bounds m pivotCol pivotRow numRows hpr
  refine ⟨⟨b1, b2⟩, b3, b4, ?_⟩
  intro hsm
  simp only [fwdLoop]
  rw [if_neg (not_le.2 hpr), if_pos hsm]

/-- Witness for C5 at the concrete input `[[0,1],[0,2]]` with pivot
column 0 (whose entries are all below `EPSILON`, so the column is
skipped). -/
theorem C5_witness :
    fwdLoop 2 2 (0 + 1) 0 0 [[0, 1], [0, 2]] [] =
      fwdLoop 2 2 0 (0 + 1) 0 [[0, 1], [0, 2]] [] := by
  have hx := C5_theorem [[0, 1], [0, 2]] 2 2 0 0 0 [] (by omega)
  exact hx.2.2.2 (by decide)

/-- A row whose first above-`EPSILON` entry lies at or past the variable
columns makes the analyzer's scan report inconsistency, regardless of the
other rows. -/
theorem rankScan_inconsistent (numCols numVars : ℕ) :
    ∀ (rows : List (List ℚ)) (row : List ℚ) (c : ℕ), row ∈ rows →
      rowFirstNonzero row numCols = some c → numVars ≤ c →
      (rankScan rows numCols numVars).2 = true := by
  intro rows
  induction rows with
  | nil => intro row c h; simp at h
  | cons head rest ih =>
    intro row c hmem hfn hge
    cases hh : rowFirstNonzero head numCols with
    | some ch =>
      simp only [rankScan, hh]
      by_cases hc : ch < numVars
      · rw [if_pos hc]
        have hrest : row ∈ rest := by
          rcases List.mem_cons.1 hmem with he | hr
          · rw [he] at hfn
            rw [hfn] at hh
            simp only [Option.some.injEq] at hh
            omega
          · exact hr
        exact ih row c hrest hfn hge
      · rw [if_neg hc]
    | none =>
      simp only [rankScan, hh]
      have hrest : row ∈ rest := by
        rcases List.mem_cons.1 hmem with he | hr
        · rw [he] at hfn
          rw [hfn] at hh
          simp at hh
        · exact hr
      exact ih row c hrest hfn hge

/-- C3: if some row's first entry with absolute value above `EPSILON`
lies in the last (constant) column, `analyzeRref` reports an inconsistent
system with no solution type and no solution point, regardless of the
content of all other rows. -/
theorem C3_theorem (m : Matrix) (row : List ℚ) (hmem : row ∈ m)
    (hcols : 2 ≤ (m.headD []).length)
    (hbad : rowFirstNonzero row (m.headD []).length =
      some ((m.headD []).length - 1)) :
    (analyzeRref m).consistency = Consistency.inconsistent ∧
      (analyzeRref m).solutionType = SolutionType.none ∧
      (analyzeRref m).solutionPoint = Option.none := by
  have hlen : ¬ m.length = 0 := by
    cases m
    · simp at hmem
    · simp
  have hscan : (rankScan m (m.headD []).length ((m.headD []).length - 1)).2 =
      true :=
    rankScan_inconsistent (m.headD []).length ((m.headD []).length - 1) m row
      ((m.headD []).length - 1) hmem hbad (le_refl _)
  unfold analyzeRref
  rw [if_neg hlen]
  rw [if_neg (by omega : ¬ (m.headD []).length < 2)]
  rw [if_pos hscan]
  exact ⟨rfl, rfl, rfl⟩

/-- Witness for C3 at the concrete input `[[0,0],[0,5]]`, whose second
row is `[0 | 5]`. -/
theorem C3_witness :
    (analyzeRref [[0, 0], [0, 5]]).consistency = Consistency.inconsistent ∧
      (analyzeRref [[0, 0], [0, 5]]).solutionType = SolutionType.none ∧
      (analyzeRref [[0, 0], [0, 5]]).solutionPoint = Option.none := by
  apply C3_theorem [[0, 0], [0, 5]] [0, 5]
  · decide
  · decide
  · decide

/-- C4: whenever the solution type reported by `analyzeRref` is not
`unique`, the reported solution point is `none`. -/
theorem C4_theorem (m : Matrix)
    (h : (analyzeRref m).solutionType ≠ SolutionType.unique) :
    (analyzeRref m).solutionPoint = Option.none := by
  by_cases h0 : m.length = 0
  · unfold analyzeRref
    rw [if_pos h0]
  · by_cases h1 : (m.headD []).length < 2
    · unfold analyzeRref
      rw [if_neg h0, if_pos h1]
    · by_cases h2 : (rankScan m (m.headD []).length
          ((m.headD []).length - 1)).2 = true
      · unfold analyzeRref
        rw [if_neg h0, if_neg h1, if_pos h2]
      · by_cases h3 : (rankScan m (m.headD []).length
            ((m.headD []).length - 1)).1 = (m.headD []).length - 1
        · exfalso
          apply h
          unfold analyzeRref
          rw [if_neg h0, if_neg h1, if_neg h2, if_pos h3]
        · unfold analyzeRref
          rw [if_neg h0, if_neg h1, if_neg h2, if_neg h3]

/-- Witness for C4 at the empty matrix, whose analysis is
inconsistent/none. -/
theorem C4_witness : (analyzeRref []).solutionPoint = Option.none := by
  apply C4_theorem
  decide

/-- C7: the already-reduced input `[[1,0,0,1],[0,1,0,2],[0,0,1,3]]` yields
a history of length exactly 1, and the analysis of its final matrix is
consistent and unique with solution point `(1, 2, 3)`. -/
theorem C7_theorem :
    calculateRrefSteps [[1, 0, 0, 1], [0, 1, 0, 2], [0, 0, 1, 3]] =
      [[[1, 0, 0, 1], [0, 1, 0, 2], [0, 0, 1, 3]]] ∧
    (analyzeRref ((calculateRrefSteps
        [[1, 0, 0, 1], [0, 1, 0, 2], [0, 0, 1, 3]]).getLastD [])).consistency =
      Consistency.consistent ∧
    (analyzeRref ((calculateRrefSteps
        [[1, 0, 0, 1], [0, 1, 0, 2], [0, 0, 1, 3]]).getLastD [])).solutionType =
      SolutionType.unique ∧
    (analyzeRref ((calculateRrefSteps
        [[1, 0, 0, 1], [0, 1, 0, 2], [0, 0, 1, 3]]).getLastD [])).solutionPoint =
      some ⟨1, 2, 3⟩ := by
  exact ⟨by decide, by decide, by decide, by decide⟩

/-! Scalar-triple-product identities for the plane-intersection claim. -/

theorem dot_smul (a b : Vec3) (s : ℚ) : dot a (smul s b) = s * dot a b := by
  simp only [dot, smul]
  ring

theorem dot_vadd (a b c : Vec3) : dot a (vadd b c) = dot a b + dot a c := by
  simp only [dot, vadd]
  ring

theorem dot_cross_left (a b : Vec3) : dot a (cross a b) = 0 := by
  simp only [dot, cross]
  ring

theorem dot_cross_right (a b : Vec3) : dot a (cross b a) = 0 := by
  simp only [dot, cross]
  ring

theorem triple_cyc_left (n1 n2 n3 : Vec3) :
    dot n2 (cross n3 n1) = dot n1 (cross n2 n3) := by
  simp only [dot, cross]
  ring

theorem triple_cyc_right (n1 n2 n3 : Vec3) :
    dot n3 (cross n1 n2) = dot n1 (cross n2 n3) := by
  simp only [dot, cross]
  ring

/-- C8: `intersectThreePlanes` returns `none` exactly when the scalar
triple product of the normals is below `EPSILON` in absolute value;
otherwise it returns the Cramer-rule point, which satisfies all three
plane equations `nᵢ·p + Dᵢ = 0` exactly (in exact arithmetic). -/
theorem C8_theorem (n1 n2 n3 : Vec3) (D1 D2 D3 : ℚ) :
    (intersectThreePlanes n1 n2 n3 D1 D2 D3 = Option.none ↔
      |dot n1 (cross n2 n3)| < EPSILON) ∧
    (¬ |dot n1 (cross n2 n3)| < EPSILON →
      intersectThreePlanes n1 n2 n3 D1 D2 D3 =
        some (smul (1 / dot n1 (cross n2 n3))
          (vadd (vadd (smul (-D1) (cross n2 n3)) (smul (-D2) (cross n3 n1)))
            (smul (-D3) (cross n1 n2))))) ∧
    (∀ p, intersectThreePlanes n1 n2 n3 D1 D2 D3 = some p →
      dot n1 p + D1 = 0 ∧ dot n2 p + D2 = 0 ∧ dot n3 p + D3 = 0) := by
  unfold intersectThreePlanes
  by_cases hd : |dot n1 (cross n2 n3)| < EPSILON
  · rw [if_pos hd]
    refine ⟨⟨fun _ => hd, fun _ => rfl⟩, fun hc => absurd hd hc, ?_⟩
    intro p hp
    simp at hp
  · rw [if_neg hd]
    have hdet : dot n1 (cross n2 n3) ≠ 0 := by
      intro he
      rw [he] at hd
      norm_num [EPSILON] at hd
    refine ⟨⟨fun he => by simp at he, fun hc => absurd hc hd⟩,
      fun _ => rfl, ?_⟩
    intro p hp
    simp only [Option.some.injEq] at hp
    rw [← hp]
    refine ⟨?_, ?_, ?_⟩
    · rw [dot_smul, dot_vadd, dot_vadd, dot_smul, dot_smul, dot_smul,
        dot_cross_right n1 n3, dot_cross_left n1 n2, mul_zero, mul_zero,
        add_zero, add_zero]
      field_simp
    · rw [dot_smul, dot_vadd, dot_vadd, dot_smul, dot_smul, dot_smul,
        dot_cross_left n2 n3, dot_cross_right n2 n1,
        triple_cyc_left n1 n2 n3, mul_zero, mul_zero, zero_add, add_zero]
      field_simp
    · rw [dot_smul, dot_vadd, dot_vadd, dot_smul, dot_smul, dot_smul,
        dot_cross_right n3 n2, dot_cross_left n3 n1,
        triple_cyc_right n1 n2 n3, mul_zero, mul_zero, zero_add, zero_add]
      field_simp

/-- Witness for C8 at the coordinate planes `x = 1`, `y = 2`, `z = 3`
(normals `(1,0,0)`, `(0,1,0)`, `(0,0,1)` with constants `-1`, `-2`, `-3`),
whose intersection point `(1,2,3)` satisfies all three plane equations. -/
theorem C8_witness :
    dot ⟨1, 0, 0⟩ ⟨1, 2, 3⟩ + (-1) = 0 ∧ dot ⟨0, 1, 0⟩ ⟨1, 2, 3⟩ + (-2) = 0 ∧
      dot ⟨0, 0, 1⟩ ⟨1, 2, 3⟩ + (-3) = 0 := by
  have hx := (C8_theorem ⟨1, 0, 0⟩ ⟨0, 1, 0⟩ ⟨0, 0, 1⟩ (-1) (-2) (-3)).2.2
    ⟨1, 2, 3⟩ (by decide)
  exact hx

/-- C9: for a row of length at least 4, the plane-pose helper always
returns a pose; when the normal's squared length is below `SQ_EPSILON`
the pose is flagged valid exactly when `|d|` is below `EPSILON`, and
otherwise it is always flagged valid. -/
theorem C9_theorem (row : List ℚ) (h4 : 4 ≤ row.length) :
    ∃ res, getPlaneTransformFromRow row = some res ∧
      (row.getD 0 0 * row.getD 0 0 + row.getD 1 0 * row.getD 1 0 +
          row.getD 2 0 * row.getD 2 0 < SQ_EPSILON →
        (res.isValid = true ↔ |row.getD 3 0| < EPSILON)) ∧
      (¬ row.getD 0 0 * row.getD 0 0 + row.getD 1 0 * row.getD 1 0 +
          row.getD 2 0 * row.getD 2 0 < SQ_EPSILON →
        res.isValid = true) := by
  unfold getPlaneTransformFromRow
  rw [if_neg (not_lt.2 h4)]
  by_cases hd : row.getD 0 0 * row.getD 0 0 + row.getD 1 0 * row.getD 1 0 +
      row.getD 2 0 * row.getD 2 0 < SQ_EPSILON
  · rw [if_pos hd]
    refine ⟨_, rfl, fun _ => ?_, fun hc => absurd hd hc⟩
    simp
  · rw [if_neg hd]
    exact ⟨_, rfl, fun hc => absurd hc hd, fun _ => rfl⟩

/-- Witness for C9 at the trivial degenerate row `[0,0,0,0]` (the `0 = 0`
identity, flagged valid). -/
theorem C9_witness :
    ∃ res, getPlaneTransformFromRow [0, 0, 0, 0] = some res ∧
      (([0, 0, 0, 0] : List ℚ).getD 0 0 * ([0, 0, 0, 0] : List ℚ).getD 0 0 +
          ([0, 0, 0, 0] : List ℚ).getD 1 0 * ([0, 0, 0, 0] : List ℚ).getD 1 0 +
          ([0, 0, 0, 0] : List ℚ).getD 2 0 * ([0, 0, 0, 0] : List ℚ).getD 2 0 <
            SQ_EPSILON →
        (res.isValid = true ↔ |([0, 0, 0, 0] : List ℚ).getD 3 0| < EPSILON)) ∧
      (¬ ([0, 0, 0, 0] : List ℚ).getD 0 0 * ([0, 0, 0, 0] : List ℚ).getD 0 0 +
          ([0, 0, 0, 0] : List ℚ).getD 1 0 * ([0, 0, 0, 0] : List ℚ).getD 1 0 +
          ([0, 0, 0, 0] : List ℚ).getD 2 0 * ([0, 0, 0, 0] : List ℚ).getD 2 0 <
            SQ_EPSILON →
        res.isValid = true) := by
  apply C9_theorem
  decide

/-- C10: rows with fewer than 4 entries yield `null` (no out-of-bounds
access), and rows with at least 4 entries always yield a pose; the
function is total. -/
theorem C10_theorem (row : List ℚ) :
    (row.length < 4 → getPlaneTransformFromRow row = Option.none) ∧
      (4 ≤ row.length → (getPlaneTransformFromRow row).isSome = true) := by
  constructor
  · intro h
    unfold getPlaneTransformFromRow
    rw [if_pos h]
  · intro h
    unfold getPlaneTransformFromRow
    rw [if_neg (not_lt.2 h)]
    by_cases hd : row.getD 0 0 * row.getD 0 0 + row.getD 1 0 * row.getD 1 0 +
        row.getD 2 0 * row.getD 2 0 < SQ_EPSILON
    · rw [if_pos hd]
      rfl
    · rw [if_neg hd]
      rfl

/-- Witness for C10: a short row yields `null` and a full row yields a
pose. -/
theorem C10_witness :
    getPlaneTransformFromRow [1, 2] = Option.none ∧
      (getPlaneTransformFromRow [1, 1, 1, 1]).isSome = true := by
  constructor
  · exact (C10_theorem [1, 2]).1 (by decide)
  · exact (C10_theorem [1, 1, 1, 1]).2 (by decide)

end ARScene
